import Mathlib

set_option maxHeartbeats 1000000

/-!
Verification development for the opentau client core.

We give a shallow embedding of the tree-completion pipeline
(`src/client/src/tree.rs`), the query cache (`src/client/src/cache.rs`) and
the language-server problem enum (`src/client/src/langserver.rs`), and prove
the specified properties about it.

Conventions of the embedding:
* `usize` is modelled as `Nat` with explicit saturation at
  `USIZE_MAX = 2 ^ 64 - 1` (a 64-bit platform); `checked_mul` is modelled by
  `checkedMul` below.
* Async calls to the language server (`weave`, `usages`, ...) are modelled as
  pure function parameters: the embedding quantifies over their behaviour.
* `HashSet<String>` is modelled as `Finset String` (insertion deduplicates);
  where the source iterates over a hash set in unspecified order, the
  embedding takes the iteration order as an explicit list parameter.
-/

def USIZE_MAX : Nat := 2 ^ 64 - 1

/-- A code block tree, as produced by the `tree` command of the language
server (`CodeBlockTree` in `tree.rs`). -/
structure CodeBlockTree where
  name : String
  code : String
  children : List CodeBlockTree
deriving Repr

/-- The per-node record of the completion level array (`CompNode` in
`tree.rs`). -/
structure CompNode where
  children_idxs : List Nat
  name : String
  code : String
  completed : List String
  usages : String
deriving Repr, DecidableEq

/-- One level of the completion level array (`CompLevel` in `tree.rs`). -/
structure CompLevel where
  nodes : List CompNode
deriving Repr, DecidableEq

/-- Rust's `usize::checked_mul` on the 64-bit model: `none` on overflow. -/
def checkedMul (a b : Nat) : Option Nat :=
  if a * b ≤ USIZE_MAX then some (a * b) else none

/-- The loop of `count_all_possible_combs` (`tree.rs:289-300`): starting from
`res`, multiply by `c` once per remaining iteration, returning `USIZE_MAX`
as soon as a multiplication overflows. -/
def countLoop (c : Nat) : Nat → Nat → Nat
  | res, 0 => res
  | res, k + 1 =>
    match checkedMul res c with
    | some m => countLoop c m k
    | none => USIZE_MAX

/-- `count_all_possible_combs` (`tree.rs:289-300`): `res` starts at 1 and is
multiplied by `child.completed.len()` once for each of the `curr_prompts`
iterations, saturating to `usize::MAX` on overflow. -/
def count_all_possible_combs (child : CompNode) (curr_prompts : Nat) : Nat :=
  countLoop child.completed.length 1 curr_prompts

theorem countLoop_eq (c : Nat) :
    ∀ (k res : Nat), res ≤ USIZE_MAX →
      countLoop c res k = min (res * c ^ k) USIZE_MAX := by
  intro k
  induction k with
  | zero =>
    intro res h
    simp [countLoop, Nat.min_eq_left h]
  | succ k ih =>
    intro res h
    rw [countLoop]
    by_cases hle : res * c ≤ USIZE_MAX
    · simp only [checkedMul, if_pos hle]
      rw [ih (res * c) hle, pow_succ]
      ring_nf
    · simp only [checkedMul, if_neg hle]
      push_neg at hle
      have hgt := hle
      have hc : 1 ≤ c := by
        by_contra hc0
        push_neg at hc0
        interval_cases c
        · simp [USIZE_MAX] at hgt
      have hone : res * c ≤ res * c * c ^ k :=
        Nat.le_mul_of_pos_right _ (Nat.pos_pow_of_pos k hc)
      have : USIZE_MAX ≤ res * c ^ (k + 1) := by
        calc USIZE_MAX ≤ res * c := Nat.le_of_lt hgt
          _ ≤ res * c * c ^ k := hone
          _ = res * c ^ (k + 1) := by ring
      rw [Nat.min_eq_right this]

theorem count_all_possible_combs_closed (child : CompNode) (n : Nat) :
    count_all_possible_combs child n =
      min (child.completed.length ^ n) USIZE_MAX := by
  have h1 : (1 : Nat) ≤ USIZE_MAX := by norm_num [USIZE_MAX]
  rw [count_all_possible_combs, countLoop_eq _ _ _ h1, one_mul]

/-- Claim C1 (counterexample): the claim says
`count_all_possible_combs(child, n) = n ^ |child.completed|`; with a child
holding 3 completed candidates and a current prompt-set of size 2 the code
returns `3 ^ 2 = 9`, not `2 ^ 3 = 8`. -/
theorem count_all_possible_combs_claim_cex :
    ¬ count_all_possible_combs ⟨[], "n", "c", ["a", "b", "c"], ""⟩ 2 = 2 ^ 3 := by
  decide

/-- Claim C1 (amended): for every child and current prompt-set size `n`,
`count_all_possible_combs(child, n)` equals `|child.completed| ^ n` — the
number of the child's completed candidates raised to the power of the
prompt-set size — saturating to the maximum representable `usize` on
overflow. -/
theorem count_all_possible_combs_spec (child : CompNode) (n : Nat) :
    count_all_possible_combs child n =
      min (child.completed.length ^ n) USIZE_MAX :=
  count_all_possible_combs_closed child n

/-- Claim C8: `count_all_possible_combs` never overflows: its result is
always at most `USIZE_MAX`; it is exact whenever the mathematical power
fits, and it returns the saturating maximum whenever the power exceeds
`USIZE_MAX` — in particular whenever the prompt count and the child's
completed count are both `2 ^ 40`. -/
theorem count_all_possible_combs_saturates (child : CompNode) (n : Nat) :
    count_all_possible_combs child n ≤ USIZE_MAX ∧
    (child.completed.length ^ n ≤ USIZE_MAX →
      count_all_possible_combs child n = child.completed.length ^ n) ∧
    (USIZE_MAX < child.completed.length ^ n →
      count_all_possible_combs child n = USIZE_MAX) ∧
    (child.completed.length = 2 ^ 40 → n = 2 ^ 40 →
      count_all_possible_combs child n = USIZE_MAX) := by
  refine ⟨?_, ?_, ?_, ?_⟩
  · rw [count_all_possible_combs_closed]; exact Nat.min_le_right _ _
  · intro h
    rw [count_all_possible_combs_closed, Nat.min_eq_left h]
  · intro h
    rw [count_all_possible_combs_closed, Nat.min_eq_right (Nat.le_of_lt h)]
  · intro hc hn
    rw [count_all_possible_combs_closed, hc, hn]
    have hbig : USIZE_MAX < (2 ^ 40 : Nat) ^ (2 ^ 40 : Nat) := by
      calc USIZE_MAX < 2 ^ 80 := by norm_num [USIZE_MAX]
        _ = (2 ^ 40 : Nat) ^ (2 : Nat) := by norm_num [← pow_mul]
        _ ≤ (2 ^ 40 : Nat) ^ (2 ^ 40 : Nat) := by
            apply Nat.pow_le_pow_right (by norm_num)
            norm_num
    rw [Nat.min_eq_right (Nat.le_of_lt hbig)]

/-- Witness for C8 at the concrete spec input: a child with 3 completed
candidates and 4 prompts gives `3 ^ 4 = 81`. -/
theorem count_all_possible_combs_saturates_witness :
    count_all_possible_combs ⟨[], "n", "c", ["a", "b", "c"], ""⟩ 4 = 81 := by
  have h :=
    (count_all_possible_combs_saturates ⟨[], "n", "c", ["a", "b", "c"], ""⟩ 4).2.1
  simp only [List.length_cons, List.length_nil] at h
  rw [h (by norm_num [USIZE_MAX])]
  norm_num

/-- Increment entry `i` of a list of counters (`res[i] += 1` in
`distribute_stop_at`, `tree.rs:313`); out-of-range indices leave the list
unchanged. -/
def listIncAt : List Nat → Nat → List Nat
  | [], _ => []
  | x :: xs, 0 => (x + 1) :: xs
  | x :: xs, i + 1 => x :: listIncAt xs i

/-- The round-robin loop of `distribute_stop_at` (`tree.rs:312-316`): while
`stop_at > 0`, increment `res[i]`, decrement `stop_at` and step
`i := (i + 1) % num_children`. -/
def distLoop (n : Nat) : List Nat → Nat → Nat → List Nat
  | res, 0, _ => res
  | res, s + 1, i => distLoop n (listIncAt res i) s ((i + 1) % n)

/-- `distribute_stop_at` (`tree.rs:308-318`): distributes `stop_at` over
`num_children` counters round-robin starting at index 0. -/
def distribute_stop_at (stop_at num_children : Nat) : List Nat :=
  distLoop num_children (List.replicate num_children 0) stop_at 0

theorem listIncAt_length (res : List Nat) (i : Nat) :
    (listIncAt res i).length = res.length := by
  induction res generalizing i with
  | nil => rfl
  | cons x xs ih =>
    cases i with
    | zero => rfl
    | succ p => simp [listIncAt, ih]

theorem listIncAt_sum (res : List Nat) (i : Nat) (h : i < res.length) :
    (listIncAt res i).sum = res.sum + 1 := by
  induction res generalizing i with
  | nil => simp at h
  | cons x xs ih =>
    cases i with
    | zero => simp [listIncAt]; omega
    | succ p =>
      simp only [listIncAt, List.sum_cons]
      rw [ih p (by simpa using h)]
      omega

theorem listIncAt_getD (res : List Nat) (i j : Nat) :
    (listIncAt res i).getD j 0 =
      res.getD j 0 + (if i = j ∧ j < res.length then 1 else 0) := by
  induction res generalizing i j with
  | nil => simp [listIncAt]
  | cons x xs ih =>
    cases i with
    | zero =>
      cases j with
      | zero => simp [listIncAt]
      | succ k => simp [listIncAt]
    | succ p =>
      cases j with
      | zero => simp [listIncAt]
      | succ k =>
        simp only [listIncAt, List.getD_cons_succ, List.length_cons]
        rw [ih p k]
        split_ifs <;> omega

/-- Number of iterations of the round-robin loop that hit counter `j`,
when `s` iterations remain and the cursor is at `i`. -/
def cntHits (s i n j : Nat) : Nat :=
  (List.range s).countP (fun k => (i + k) % n == j)

theorem cntHits_zero (i n j : Nat) : cntHits 0 i n j = 0 := by
  simp [cntHits]

theorem cntHits_succ_left (s i n j : Nat) (hi : i < n) :
    cntHits (s + 1) i n j =
      (if i = j then 1 else 0) + cntHits s ((i + 1) % n) n j := by
  unfold cntHits
  rw [List.range_succ_eq_map, List.countP_cons, List.countP_map]
  have h1 : (List.range s).countP ((fun k => (i + k) % n == j) ∘ Nat.succ) =
      (List.range s).countP (fun k => ((i + 1) % n + k) % n == j) := by
    apply List.countP_congr
    intro k _
    simp only [Function.comp_apply]
    have hmod : (i + Nat.succ k) % n = ((i + 1) % n + k) % n := by
      rw [Nat.mod_add_mod]
      congr 1
      omega
    rw [hmod]
  rw [h1, Nat.add_comm]
  congr 1
  have h0 : (i + 0) % n = i := by rw [Nat.add_zero, Nat.mod_eq_of_lt hi]
  rw [h0]
  by_cases h : i = j <;> simp [h]

theorem distLoop_length (n : Nat) :
    ∀ (s : Nat) (res : List Nat) (i : Nat),
      (distLoop n res s i).length = res.length := by
  intro s
  induction s with
  | zero => intro res i; rfl
  | succ s ih =>
    intro res i
    rw [distLoop, ih, listIncAt_length]

theorem distLoop_sum (n : Nat) (hn : 0 < n) :
    ∀ (s : Nat) (res : List Nat) (i : Nat), res.length = n → i < n →
      (distLoop n res s i).sum = res.sum + s := by
  intro s
  induction s with
  | zero => intro res i _ _; rfl
  | succ s ih =>
    intro res i hlen hi
    rw [distLoop, ih _ _ (by rw [listIncAt_length]; exact hlen)
      (Nat.mod_lt _ hn), listIncAt_sum res i (by omega)]
    omega

theorem distLoop_getD (n : Nat) (hn : 0 < n) :
    ∀ (s : Nat) (res : List Nat) (i j : Nat), res.length = n → i < n → j < n →
      (distLoop n res s i).getD j 0 = res.getD j 0 + cntHits s i n j := by
  intro s
  induction s with
  | zero => intro res i j _ _ _; simp [distLoop, cntHits_zero]
  | succ s ih =>
    intro res i j hlen hi hj
    rw [distLoop, ih _ _ _ (by rw [listIncAt_length]; exact hlen)
      (Nat.mod_lt _ hn) hj, listIncAt_getD, cntHits_succ_left s i n j hi]
    have : (i = j ∧ j < res.length) ↔ i = j := by
      constructor
      · exact fun h => h.1
      · exact fun h => ⟨h, by omega⟩
    rw [if_congr this rfl rfl]
    omega

theorem succ_div_mod (s n : Nat) (hn : 0 < n) :
    ((s % n + 1 < n → (s + 1) % n = s % n + 1 ∧ (s + 1) / n = s / n) ∧
     (s % n + 1 = n → (s + 1) % n = 0 ∧ (s + 1) / n = s / n + 1)) := by
  constructor
  · intro h
    have := (Nat.div_mod_unique hn (a := s + 1) (d := s / n) (c := s % n + 1)).2
      ⟨by have := Nat.mod_add_div s n; omega, h⟩
    exact ⟨this.2, this.1⟩
  · intro h
    have hms : n * (s / n + 1) = n * (s / n) + n := by ring
    have := (Nat.div_mod_unique hn (a := s + 1) (d := s / n + 1) (c := 0)).2
      ⟨by have := Nat.mod_add_div s n; omega, hn⟩
    exact ⟨this.2, this.1⟩

theorem cntHits_zero_closed (n : Nat) (hn : 0 < n) :
    ∀ (s j : Nat), j < n →
      cntHits s 0 n j = s / n + if j < s % n then 1 else 0 := by
  intro s
  induction s with
  | zero => intro j hj; simp [cntHits_zero, Nat.zero_div, Nat.zero_mod]
  | succ s ih =>
    intro j hj
    have hpeel : cntHits (s + 1) 0 n j =
        cntHits s 0 n j + (if s % n = j then 1 else 0) := by
      unfold cntHits
      rw [List.range_succ, List.countP_append, List.countP_cons,
        List.countP_nil]
      have h0 : (0 + s) % n = s % n := by rw [Nat.zero_add]
      rw [h0]
      congr 1
      by_cases h : s % n = j <;> simp [h]
    rw [hpeel, ih j hj]
    have hmodlt : s % n < n := Nat.mod_lt _ hn
    by_cases hcase : s % n + 1 < n
    · have h2 := (succ_div_mod s n hn).1 hcase
      rw [h2.1, h2.2]
      split_ifs <;> omega
    · have hne : s % n + 1 = n := by omega
      have h2 := (succ_div_mod s n hn).2 hne
      rw [h2.1, h2.2]
      split_ifs <;> omega

theorem getD_replicate_zero (n j : Nat) :
    (List.replicate n (0 : Nat)).getD j 0 = 0 := by
  induction n generalizing j with
  | zero => simp
  | succ n ih => cases j <;> simp [List.replicate, ih]

/-- Closed form of `distribute_stop_at`: entry `j` is
`stop_at / n + 1` for `j < stop_at % n` and `stop_at / n` otherwise. -/
theorem distribute_stop_at_getD (s n : Nat) (hn : 0 < n) (j : Nat) (hj : j < n) :
    (distribute_stop_at s n).getD j 0 =
      s / n + if j < s % n then 1 else 0 := by
  rw [distribute_stop_at,
    distLoop_getD n hn s (List.replicate n 0) 0 j (by simp) hn hj,
    cntHits_zero_closed n hn s j hj, getD_replicate_zero]
  omega

theorem distribute_stop_at_length (s n : Nat) :
    (distribute_stop_at s n).length = n := by
  rw [distribute_stop_at, distLoop_length]
  simp

theorem distribute_stop_at_sum (s n : Nat) (hn : 0 < n) :
    (distribute_stop_at s n).sum = s := by
  rw [distribute_stop_at, distLoop_sum n hn s _ 0 (by simp) hn]
  simp

/-- Claim C3: for every `stop_at` and `num_children > 0`,
`distribute_stop_at` returns a vector of length `num_children` whose entries
sum to `stop_at`, any two entries differ by at most one with the larger
entries packed at the lower indices (non-increasing), and the four concrete
examples of the spec hold. -/
theorem distribute_stop_at_spec :
    (∀ s n, 0 < n →
      (distribute_stop_at s n).length = n ∧
      (distribute_stop_at s n).sum = s ∧
      (∀ j k, j ≤ k → k < n →
        (distribute_stop_at s n).getD k 0 ≤ (distribute_stop_at s n).getD j 0 ∧
        (distribute_stop_at s n).getD j 0 ≤
          (distribute_stop_at s n).getD k 0 + 1)) ∧
    distribute_stop_at 10 3 = [4, 3, 3] ∧
    distribute_stop_at 10 4 = [3, 3, 2, 2] ∧
    distribute_stop_at 7 7 = [1, 1, 1, 1, 1, 1, 1] ∧
    distribute_stop_at 0 3 = [0, 0, 0] := by
  refine ⟨?_, by decide, by decide, by decide, by decide⟩
  intro s n hn
  refine ⟨distribute_stop_at_length s n, distribute_stop_at_sum s n hn, ?_⟩
  intro j k hjk hk
  rw [distribute_stop_at_getD s n hn j (by omega),
    distribute_stop_at_getD s n hn k hk]
  split_ifs <;> omega

/-- Witness for C3 at `stop_at = 10`, `num_children = 3`. -/
theorem distribute_stop_at_spec_witness :
    (distribute_stop_at 10 3).length = 3 ∧ (distribute_stop_at 10 3).sum = 10 :=
  ⟨(distribute_stop_at_spec.1 10 3 (by decide)).1,
   (distribute_stop_at_spec.1 10 3 (by decide)).2.1⟩

/-- `stop_at_effective` — the effective per-node budget of
`spawn_parallel_comp` (`tree.rs:453`): `max(params.stop_at, num_children)`,
guaranteeing at least one candidate per child. -/
def stop_at_effective (stop_at num_children : Nat) : Nat :=
  max stop_at num_children

/-- Claim C6: for a node with children, the effective budget is
`max(params.stop_at, num_children)` and every entry of
`distribute_stop_at(stop_at_effective, num_children)` — each child's
`upper` — is at least 1. -/
theorem stop_at_effective_spec (stop_at n : Nat) (hn : 0 < n) :
    stop_at_effective stop_at n = max stop_at n ∧
    ∀ j, j < n →
      1 ≤ (distribute_stop_at (stop_at_effective stop_at n) n).getD j 0 := by
  refine ⟨rfl, ?_⟩
  intro j hj
  rw [distribute_stop_at_getD _ n hn j hj]
  have hge : n ≤ stop_at_effective stop_at n := Nat.le_max_right _ _
  have hdiv : 1 ≤ stop_at_effective stop_at n / n := by
    rw [Nat.le_div_iff_mul_le hn]
    omega
  split_ifs <;> omega

/-- Witness for C6 at `stop_at = 0`, `num_children = 2`, child index 1. -/
theorem stop_at_effective_spec_witness :
    1 ≤ (distribute_stop_at (stop_at_effective 0 2) 2).getD 1 0 :=
  (stop_at_effective_spec 0 2 (by decide)).2 1 (by decide)

/-- One candidate completion returned by the completion engine
(`Completion` in `completion.rs`; only the `code` field is relevant to the
tree pipeline). -/
structure Completion where
  code : String
deriving Repr, DecidableEq

/-- Errors of the completion engine (`CompletionError` in `completion.rs`):
a rate limit carrying the candidates observed so far, or any other error
(collapsed into one variant; `retry_query_until_ok` never inspects it). -/
inductive CompletionError where
  | RateLimit (candidates : List Completion) : CompletionError
  | Other (msg : String) : CompletionError
deriving Repr, DecidableEq

/-- The retry loop of `retry_query_until_ok` (`tree.rs:405-427`). The engine
is modelled as a function from the attempt index (0-based) to that attempt's
result. State: the current result `res`, the `retries` counter, and the
number of attempts made so far (instrumentation for the attempt count; the
first component of the result is exactly what the source returns). A
rate-limit error is only logged (`eprintln!`) and is otherwise handled like
any other error. -/
def retryGo (engine : Nat → Except CompletionError (List Completion))
    (res : Except CompletionError (List Completion)) (retries attempts : Nat) :
    Option (List Completion) × Nat :=
  match res with
  | Except.ok r => (some r, attempts)
  | Except.error _ =>
    if 5 < retries then (none, attempts)
    else retryGo engine (engine attempts) (retries + 1) (attempts + 1)
termination_by 6 - retries
decreasing_by omega

/-- `retry_query_until_ok` (`tree.rs:405-427`): perform the initial engine
call, then retry while the result is an error, giving up once the `retries`
counter exceeds 5. -/
def retry_query_until_ok
    (engine : Nat → Except CompletionError (List Completion)) :
    Option (List Completion) :=
  (retryGo engine (engine 0) 0 1).1

/-- Total number of engine calls `retry_query_until_ok` performs. -/
def retry_attempts
    (engine : Nat → Except CompletionError (List Completion)) : Nat :=
  (retryGo engine (engine 0) 0 1).2

theorem retryGo_attempts_le
    (engine : Nat → Except CompletionError (List Completion)) :
    ∀ (b : Nat) (res : Except CompletionError (List Completion))
      (retries attempts : Nat), 6 - retries ≤ b →
      (retryGo engine res retries attempts).2 ≤ attempts + (6 - retries) := by
  intro b
  induction b with
  | zero =>
    intro res retries attempts hb
    have h6 : 6 ≤ retries := by omega
    cases res with
    | ok r => simp [retryGo]
    | error e =>
      rw [retryGo, if_pos (by omega)]
      simp
  | succ b ih =>
    intro res retries attempts hb
    cases res with
    | ok r => simp [retryGo]
    | error e =>
      rw [retryGo]
      by_cases h : 5 < retries
      · rw [if_pos h]
        simp
      · rw [if_neg h]
        have := ih (engine attempts) (retries + 1) (attempts + 1) (by omega)
        omega

theorem retryGo_all_fail
    (engine : Nat → Except CompletionError (List Completion))
    (hfail : ∀ i, ∃ e, engine i = Except.error e) :
    ∀ (b : Nat) (retries attempts : Nat), retries + b = 6 →
      ∀ (e0 : CompletionError),
        retryGo engine (Except.error e0) retries attempts =
          (none, attempts + b) := by
  intro b
  induction b with
  | zero =>
    intro retries attempts hrb e0
    rw [retryGo, if_pos (by omega)]
    simp
  | succ b ih =>
    intro retries attempts hrb e0
    rw [retryGo, if_neg (by omega)]
    obtain ⟨e1, he1⟩ := hfail attempts
    rw [he1, ih (retries + 1) (attempts + 1) (by omega) e1]
    congr 1
    omega

/-- An engine whose every attempt fails. -/
def allFailEngine : Nat → Except CompletionError (List Completion) :=
  fun _ => Except.error (CompletionError.Other "fail")

/-- Claim C2 (counterexample): with an engine that fails on every attempt,
`retry_query_until_ok` performs 7 engine attempts — not 6 — before returning
`None`: the guard `retries > 5` permits six retries after the initial call. -/
theorem retry_query_until_ok_claim_cex :
    retry_query_until_ok allFailEngine = none ∧
    retry_attempts allFailEngine = 7 ∧ ¬ retry_attempts allFailEngine ≤ 6 := by
  have h := retryGo_all_fail allFailEngine
    (fun i => ⟨CompletionError.Other "fail", rfl⟩) 6 0 1 (by omega)
    (CompletionError.Other "fail")
  constructor
  · rw [retry_query_until_ok]
    show (retryGo allFailEngine (Except.error (CompletionError.Other "fail")) 0 1).1 = none
    rw [h]
  · rw [retry_attempts]
    constructor
    · show (retryGo allFailEngine
        (Except.error (CompletionError.Other "fail")) 0 1).2 = 7
      rw [h]
    · show ¬ (retryGo allFailEngine
        (Except.error (CompletionError.Other "fail")) 0 1).2 ≤ 6
      rw [h]
      omega

/-- Claim C2 (amended): `retry_query_until_ok` makes at most 7 engine
attempts in total (one initial call plus six retries — the guard is
`retries > 5` checked after incrementing): for every sequence of engine
responses in which every attempt fails, it returns `None` after the 7th
failed attempt; a rate-limit error counts as a retry like any other error
(the code only logs it and never branches on the error variant, which the
universal quantification over `engine` covers). -/
theorem retry_query_until_ok_spec :
    (∀ engine, retry_attempts engine ≤ 7) ∧
    (∀ engine, (∀ i, ∃ e, engine i = Except.error e) →
      retry_query_until_ok engine = none ∧ retry_attempts engine = 7) := by
  constructor
  · intro engine
    have h := retryGo_attempts_le engine 6 (engine 0) 0 1 (by omega)
    rw [retry_attempts]
    omega
  · intro engine hfail
    obtain ⟨e0, he0⟩ := hfail 0
    have h := retryGo_all_fail engine hfail 6 0 1 (by omega) e0
    rw [retry_query_until_ok, retry_attempts, he0, h]
    exact ⟨rfl, rfl⟩

/-- Witness for C2 at a concrete always-failing engine (a rate-limit error,
exercising the rate-limit path as an ordinary retry). -/
theorem retry_query_until_ok_spec_witness :
    retry_query_until_ok (fun _ => Except.error (CompletionError.RateLimit []))
      = none :=
  (retry_query_until_ok_spec.2
    (fun _ => Except.error (CompletionError.RateLimit []))
    (fun _ => ⟨CompletionError.RateLimit [], rfl⟩)).1

/-- The kinds of problems reported by the completion heuristics
(`CheckProblem` in `langserver.rs:13-20`). -/
inductive CheckProblem where
  | NotComplete : CheckProblem
  | ChangedCode : CheckProblem
  | ChangedComments : CheckProblem
deriving Repr, DecidableEq

/-- Modelled from the spec: the `Serialize` impl of `CheckProblem` is not
under `src/`; per the spec, a `CheckProblem` is "serialized as its tag
name". -/
def serialize_check_problem : CheckProblem → String
  | CheckProblem.NotComplete => "NotComplete"
  | CheckProblem.ChangedCode => "ChangedCode"
  | CheckProblem.ChangedComments => "ChangedComments"

/-- The custom `Deserialize` impl of `CheckProblem`
(`langserver.rs:22-37`): match on the tag string, any other string is an
error `"invalid CheckProblem: <s>"`. -/
def deserialize_check_problem (s : String) : Except String CheckProblem :=
  if s = "NotComplete" then Except.ok CheckProblem.NotComplete
  else if s = "ChangedCode" then Except.ok CheckProblem.ChangedCode
  else if s = "ChangedComments" then Except.ok CheckProblem.ChangedComments
  else Except.error ("invalid CheckProblem: " ++ s)

/-- Claim C9: `CheckProblem` round-trips through its tag-name string form;
each variant serializes to its tag name, deserializing that tag yields the
variant back, and deserializing any other string fails with an error. -/
theorem check_problem_roundtrip :
    (∀ p, deserialize_check_problem (serialize_check_problem p) =
      Except.ok p) ∧
    serialize_check_problem CheckProblem.NotComplete = "NotComplete" ∧
    serialize_check_problem CheckProblem.ChangedCode = "ChangedCode" ∧
    serialize_check_problem CheckProblem.ChangedComments = "ChangedComments" ∧
    (∀ s, s ≠ "NotComplete" → s ≠ "ChangedCode" → s ≠ "ChangedComments" →
      deserialize_check_problem s =
        Except.error ("invalid CheckProblem: " ++ s)) := by
  refine ⟨?_, rfl, rfl, rfl, ?_⟩
  · intro p
    cases p <;> rfl
  · intro s h1 h2 h3
    rw [deserialize_check_problem, if_neg h1, if_neg h2, if_neg h3]

/-- Witness for C9: deserializing the unknown tag `"Bogus"` fails. -/
theorem check_problem_roundtrip_witness :
    deserialize_check_problem "Bogus" =
      Except.error ("invalid CheckProblem: " ++ "Bogus") :=
  check_problem_roundtrip.2.2.2.2 "Bogus" (by decide) (by decide) (by decide)

/-- The inner loop of `all_combs` (`tree.rs:330-338`) for one prompt `p`:
pair `p` with each completion while the remaining budget `u` is nonzero
(`if upper == 0 return`); returns the produced pairs and the remaining
budget. -/
def acInner (p : String) : List String → Nat → List (String × String) × Nat
  | [], u => ([], u)
  | c :: cs, u =>
    if u = 0 then ([], 0)
    else
      let r := acInner p cs (u - 1)
      ((p, c) :: r.1, r.2)

/-- The outer loop of `all_combs` (`tree.rs:323-340`): iterate the prompts,
threading the remaining budget through the inner loops. -/
def acOuter (comps : List String) :
    List String → Nat → List (String × String)
  | [], _ => []
  | p :: ps, u =>
    let r := acInner p comps u
    r.1 ++ acOuter comps ps r.2

/-- `all_combs` (`tree.rs:323-340`): all `(prompt, completion)` pairs in
insertion order, truncated at the upper bound (`usize::MAX` when `none`,
matching `upper.unwrap_or(usize::MAX)`). The unspecified hash-set iteration
order of the prompt set is taken to be the order of the input list. -/
def all_combs (prompts comps : List String) (upper : Option Nat) :
    List (String × String) :=
  acOuter comps prompts (upper.getD USIZE_MAX)

theorem acInner_eq (p : String) :
    ∀ (cs : List String) (u : Nat),
      acInner p cs u =
        ((cs.map (fun c => (p, c))).take u, u - cs.length) := by
  intro cs
  induction cs with
  | nil => intro u; simp [acInner]
  | cons c cs ih =>
    intro u
    rw [acInner]
    by_cases hu : u = 0
    · subst hu
      simp
    · rw [if_neg hu, ih (u - 1)]
      obtain ⟨v, rfl⟩ := Nat.exists_eq_succ_of_ne_zero hu
      simp only [List.map_cons, List.length_cons, List.take_succ_cons,
        Nat.succ_sub_one, Prod.mk.injEq]
      exact ⟨trivial, by omega⟩

theorem acOuter_eq (comps : List String) :
    ∀ (ps : List String) (u : Nat),
      acOuter comps ps u =
        (ps.flatMap (fun p => comps.map (fun c => (p, c)))).take u := by
  intro ps
  induction ps with
  | nil => intro u; simp [acOuter]
  | cons p ps ih =>
    intro u
    rw [acOuter]
    simp only [acInner_eq, List.flatMap_cons]
    rw [ih, List.take_append_eq_append_take, List.length_map]

/-- `all_combs` with an upper bound is exactly the prefix of the in-order
cross product of prompts and completions. -/
theorem all_combs_eq_take (prompts comps : List String) (m : Nat) :
    all_combs prompts comps (some m) =
      (prompts.flatMap (fun p => comps.map (fun c => (p, c)))).take m := by
  rw [all_combs, Option.getD_some, acOuter_eq]


/-- Clamp a sampled index to the last valid index of a list of the given
length (`if idx >= all_combs.len() { idx = all_combs.len() - 1 }`,
`tree.rs:382-384`). -/
def clampIdx (len s0 : Nat) : Nat :=
  if len ≤ s0 then len - 1 else s0

/-- The sampling loop of `merge_below_random_poisson` (`tree.rs:374-399`):
while the new prompt set is smaller than `upper` and pairs remain, sample an
index (the Poisson draws form the `sample` sequence, indexed by the
iteration counter `step`), clamp it to the last valid index, remove that
pair, weave it and insert the result. The second component of the result
counts the loop iterations performed. -/
def mergePoissonLoop (weave : String → String → String) (sample : Nat → Nat)
    (upper : Nat) (step : Nat) (newPrompts : Finset String)
    (combs : List (String × String)) : Finset String × Nat :=
  if h : newPrompts.card < upper ∧ combs ≠ [] then
    mergePoissonLoop weave sample upper (step + 1)
      (insert
        (weave (combs.getD (clampIdx combs.length (sample step)) ("", "")).1
          (combs.getD (clampIdx combs.length (sample step)) ("", "")).2)
        newPrompts)
      (combs.eraseIdx (clampIdx combs.length (sample step)))
  else (newPrompts, step)
termination_by combs.length
decreasing_by
  rw [List.length_eraseIdx]
  have hlen : 0 < combs.length := List.length_pos.2 h.2
  unfold clampIdx
  split_ifs <;> omega

/-- `merge_below_random_poisson` (`tree.rs:348-402`): enumerate at most
`upper * 5` pairs via `all_combs` (`combs_upper`, `tree.rs:370`), then run
the sampling loop from an empty new prompt set; the result replaces the old
prompt set. -/
def merge_below_random_poisson (weave : String → String → String)
    (sample : Nat → Nat) (child : CompNode) (upper : Nat)
    (prompts_list : List String) : Finset String × Nat :=
  mergePoissonLoop weave sample upper 0 ∅
    (all_combs prompts_list child.completed (some (upper * 5)))

theorem clampIdx_lt (len s0 : Nat) (hlen : 0 < len) : clampIdx len s0 < len := by
  unfold clampIdx
  split_ifs <;> omega

theorem mergePoissonLoop_card_le (weave : String → String → String)
    (sample : Nat → Nat) (upper : Nat) :
    ∀ (n : Nat) (combs : List (String × String)), combs.length ≤ n →
      ∀ (step : Nat) (newPrompts : Finset String), newPrompts.card ≤ upper →
        (mergePoissonLoop weave sample upper step newPrompts combs).1.card ≤
          upper := by
  intro n
  induction n with
  | zero =>
    intro combs hlen step np hcard
    have hc : combs = [] := List.eq_nil_of_length_eq_zero (by omega)
    subst hc
    rw [mergePoissonLoop, dif_neg (by simp)]
    exact hcard
  | succ n ih =>
    intro combs hlen step np hcard
    rw [mergePoissonLoop]
    split_ifs with h
    · have hpos : 0 < combs.length := List.length_pos.2 h.2
      apply ih
      · rw [List.length_eraseIdx, if_pos (clampIdx_lt _ _ hpos)]
        omega
      · calc (insert _ np).card ≤ np.card + 1 := Finset.card_insert_le _ _
          _ ≤ upper := by omega
    · exact hcard

theorem mergePoissonLoop_steps_le (weave : String → String → String)
    (sample : Nat → Nat) (upper : Nat) :
    ∀ (n : Nat) (combs : List (String × String)), combs.length ≤ n →
      ∀ (step : Nat) (newPrompts : Finset String),
        (mergePoissonLoop weave sample upper step newPrompts combs).2 ≤
          step + combs.length := by
  intro n
  induction n with
  | zero =>
    intro combs hlen step np
    have hc : combs = [] := List.eq_nil_of_length_eq_zero (by omega)
    subst hc
    rw [mergePoissonLoop, dif_neg (by simp)]
    simp
  | succ n ih =>
    intro combs hlen step np
    rw [mergePoissonLoop]
    split_ifs with h
    · have hpos : 0 < combs.length := List.length_pos.2 h.2
      have herase : (combs.eraseIdx (clampIdx combs.length (sample step))).length
          = combs.length - 1 := by
        rw [List.length_eraseIdx, if_pos (clampIdx_lt _ _ hpos)]
      have := ih (combs.eraseIdx (clampIdx combs.length (sample step)))
        (by omega) (step + 1)
        (insert
          (weave (combs.getD (clampIdx combs.length (sample step)) ("", "")).1
            (combs.getD (clampIdx combs.length (sample step)) ("", "")).2) np)
      omega
    · omega

/-- Claim C7: `merge_below_random_poisson` terminates on every input — the
loop runs at most as many iterations as the pair list is long, since each
iteration removes one pair — after enumerating at most `upper * 5`
(prompt, child-candidate) pairs in insertion order (a prefix of the in-order
cross product), and the prompt set it leaves behind has at most `upper`
elements. -/
theorem merge_below_random_poisson_spec (weave : String → String → String)
    (sample : Nat → Nat) (child : CompNode) (upper : Nat)
    (prompts_list : List String) :
    all_combs prompts_list child.completed (some (upper * 5)) =
      (prompts_list.flatMap
        (fun p => child.completed.map (fun c => (p, c)))).take (upper * 5) ∧
    (all_combs prompts_list child.completed (some (upper * 5))).length ≤
      upper * 5 ∧
    (merge_below_random_poisson weave sample child upper
      prompts_list).1.card ≤ upper ∧
    (merge_below_random_poisson weave sample child upper prompts_list).2 ≤
      (all_combs prompts_list child.completed (some (upper * 5))).length := by
  refine ⟨all_combs_eq_take _ _ _, ?_, ?_, ?_⟩
  · rw [all_combs_eq_take]
    apply List.length_take_le
  · rw [merge_below_random_poisson]
    exact mergePoissonLoop_card_le weave sample upper _ _ le_rfl 0 ∅ (by simp)
  · have h := mergePoissonLoop_steps_le weave sample upper _
      (all_combs prompts_list child.completed (some (upper * 5))) le_rfl 0 ∅
    rw [merge_below_random_poisson]
    omega

/-- `merge_below_all_combs` (`tree.rs:257-285`): the fresh prompt set is the
set of weaves of every (prompt, child-candidate) pair, and it replaces the
parent's prompt set. The `weave` parameter stands for the language server's
weave at the nettle level `min(1, level)` used by the source. -/
def merge_below_all_combs (weave : String → String → String)
    (child : CompNode) (prompts_set : Finset String) : Finset String :=
  Finset.image (fun pc : String × String => weave pc.1 pc.2)
    (prompts_set ×ˢ child.completed.toFinset)

/-- The per-child merge step of `spawn_parallel_comp` (`tree.rs:463-485`):
count the possible combinations, and use the Poisson merge when the count
exceeds the child's budget `upper`, the all-combinations merge otherwise.
`enum` supplies the unspecified iteration order of the prompt hash set to
the Poisson merge. -/
def mergeChild (weave : String → String → String) (sample : Nat → Nat)
    (enum : Finset String → List String) (child : CompNode) (upper : Nat)
    (prompts_set : Finset String) : Finset String :=
  if upper < count_all_possible_combs child prompts_set.card then
    (merge_below_random_poisson weave sample child upper
      (enum prompts_set)).1
  else
    merge_below_all_combs weave child prompts_set

theorem mergeChild_empty_prompts (weave : String → String → String)
    (sample : Nat → Nat) (enum : Finset String → List String)
    (child : CompNode) (upper : Nat) :
    mergeChild weave sample enum child upper (∅ : Finset String) = ∅ := by
  rw [mergeChild]
  split_ifs with h
  · have hcount : count_all_possible_combs child (∅ : Finset String).card
        = min 1 USIZE_MAX := by
      rw [count_all_possible_combs_closed, Finset.card_empty, pow_zero]
    have hmin : min 1 USIZE_MAX = 1 := by norm_num [USIZE_MAX]
    have hupper : upper = 0 := by
      rw [hcount, hmin] at h
      omega
    subst hupper
    rw [merge_below_random_poisson, mergePoissonLoop, dif_neg (by simp)]
  · rw [merge_below_all_combs]
    simp

theorem foldl_mergeChild_empty (weave : String → String → String)
    (sample : Nat → Nat) (enum : Finset String → List String) :
    ∀ (rest : List (CompNode × Nat)),
      rest.foldl (fun ps cu => mergeChild weave sample enum cu.1 cu.2 ps)
        (∅ : Finset String) = ∅ := by
  intro rest
  induction rest with
  | nil => rfl
  | cons cu rest ih =>
    rw [List.foldl_cons, mergeChild_empty_prompts]
    exact ih

/-- Claim C10: a child with an empty completed list has combination count
at most the child's budget (it is `0` for a non-empty prompt set and `1`
for an empty one, never more than `upper ≥ 1`), so merging it selects the
all-combinations strategy and replaces the parent's prompt set with the
empty set; every subsequent child merge keeps the prompt set empty, so the
fold over any remaining children ends with the empty prompt set (and hence
the node's completed list, which is built from the prompt set, is empty). -/
theorem empty_child_merge_collapses (weave : String → String → String)
    (sample : Nat → Nat) (enum : Finset String → List String)
    (child : CompNode) (hc : child.completed = [])
    (upper : Nat) (hu : 1 ≤ upper) (prompts_set : Finset String) :
    count_all_possible_combs child prompts_set.card ≤ upper ∧
    mergeChild weave sample enum child upper prompts_set =
      merge_below_all_combs weave child prompts_set ∧
    mergeChild weave sample enum child upper prompts_set = ∅ ∧
    (∀ (child2 : CompNode) (upper2 : Nat),
      mergeChild weave sample enum child2 upper2 (∅ : Finset String) = ∅) ∧
    (∀ (rest : List (CompNode × Nat)),
      rest.foldl (fun ps cu => mergeChild weave sample enum cu.1 cu.2 ps)
        (∅ : Finset String) = ∅) := by
  have hlen : child.completed.length = 0 := by rw [hc]; rfl
  have hcount : count_all_possible_combs child prompts_set.card ≤ upper := by
    rw [count_all_possible_combs_closed, hlen]
    rcases Nat.eq_zero_or_pos prompts_set.card with h0 | hpos
    · rw [h0, pow_zero]
      have : min 1 USIZE_MAX = 1 := by norm_num [USIZE_MAX]
      omega
    · rw [Nat.zero_pow hpos]
      simp
  have hallc : merge_below_all_combs weave child prompts_set = ∅ := by
    rw [merge_below_all_combs, hc]
    simp
  have hsel : mergeChild weave sample enum child upper prompts_set =
      merge_below_all_combs weave child prompts_set := by
    rw [mergeChild, if_neg (by omega)]
  refine ⟨hcount, hsel, ?_, mergeChild_empty_prompts weave sample enum,
    foldl_mergeChild_empty weave sample enum⟩
  rw [hsel, hallc]

/-- Witness for C10: a child with no completed candidates, budget 1 and a
one-element prompt set collapses the prompt set to the empty set. -/
theorem empty_child_merge_collapses_witness :
    mergeChild (fun a b => a ++ b) (fun _ => 0) (fun _ => ["p"])
      ⟨[], "c", "x", [], ""⟩ 1 ({"p"} : Finset String) = ∅ :=
  (empty_child_merge_collapses (fun a b => a ++ b) (fun _ => 0)
    (fun _ => ["p"]) ⟨[], "c", "x", [], ""⟩ rfl 1 (by decide) {"p"}).2.2.1

mutual

/-- Number of nodes of a code block tree (termination measure for the
`prepare` loop). -/
def sizeT : CodeBlockTree → Nat
  | ⟨_, _, cs⟩ => 1 + sizeTs cs

/-- Total number of nodes of a list of code block trees. -/
def sizeTs : List CodeBlockTree → Nat
  | [] => 0
  | t :: ts => sizeT t + sizeTs ts

end

theorem sizeTs_append (a b : List CodeBlockTree) :
    sizeTs (a ++ b) = sizeTs a + sizeTs b := by
  induction a with
  | nil => simp [sizeTs]
  | cons t ts ih => simp [sizeTs, ih]; omega

theorem sizeT_pos (t : CodeBlockTree) : 0 < sizeT t := by
  obtain ⟨n, c, cs⟩ := t
  rw [sizeT]
  omega

theorem sizeTs_flatMap_children (ts : List CodeBlockTree) :
    sizeTs (ts.flatMap (fun t => t.children)) + ts.length = sizeTs ts := by
  induction ts with
  | nil => simp [sizeTs]
  | cons t ts ih =>
    rw [List.flatMap_cons, sizeTs_append, sizeTs]
    obtain ⟨n, c, cs⟩ := t
    rw [sizeT]
    simp only [List.length_cons]
    omega

/-- Append `idx` to the `children_idxs` of node `p` of a level
(`parent.children_idxs.push(idx)`, `tree.rs:214`). -/
def pushIdx : List CompNode → Nat → Nat → List CompNode
  | [], _, _ => []
  | nd :: nds, 0, idx =>
    { nd with children_idxs := nd.children_idxs ++ [idx] } :: nds
  | nd :: nds, p + 1, idx => nd :: pushIdx nds p idx

/-- The `code` of node `p` of a level (the parent lookup of
`tree.rs:213`; on the valid inputs produced by `prepare` the index is
always in range). -/
def codeAt (nds : List CompNode) (p : Nat) : String :=
  (nds.getD p ⟨[], "", "", [], ""⟩).code

/-- The inner double loop of one `prepare` iteration
(`tree.rs:205-241`), processing the flattened `(parent_idx, child)` pairs
in order. State: the current level being patched (`curr`), the next
level's nodes built so far (`next`), and the next `p_children`
memoization (`newCh`). For each pair: the child's position `idx` is the
running length of `next`; the parent's `children_idxs` gets `idx`
appended; the usages snippet is computed from the parent's code unless
usages are disabled or the child's name starts with `"topnode"`
(`tree.rs:220-228`); the unpatched child node and its children are pushed.
`uFn` models the language server's `usages` command (its snippet
component; the count only feeds the statistics sink). -/
def procPairs (uOn : Bool) (uFn : String → String → String) :
    List (Nat × CodeBlockTree) → List CompNode → List CompNode →
    List (Nat × List CodeBlockTree) →
    List CompNode × List CompNode × List (Nat × List CodeBlockTree)
  | [], curr, next, newCh => (curr, next, newCh)
  | (pIdx, child) :: rest, curr, next, newCh =>
    procPairs uOn uFn rest (pushIdx curr pIdx next.length)
      (next ++ [⟨[], child.name, child.code, [],
        if uOn && !(child.name.startsWith "topnode") then
          uFn (codeAt (pushIdx curr pIdx next.length) pIdx) child.code
        else ""⟩])
      (newCh ++ [(next.length, child.children)])

/-- Flatten `p_children` into the ordered `(parent_idx, child)` pairs the
inner double loop visits. -/
def pairsOf (pch : List (Nat × List CodeBlockTree)) :
    List (Nat × CodeBlockTree) :=
  pch.flatMap (fun pc => pc.2.map (fun c => (pc.1, c)))

/-- The trees held in a `p_children` memoization, in visit order. -/
def pchTrees (pch : List (Nat × List CodeBlockTree)) : List CodeBlockTree :=
  pch.flatMap (fun pc => pc.2)

/-- Termination measure of the `prepare` loop: total tree size pending in
`p_children`. -/
def pchSize (pch : List (Nat × List CodeBlockTree)) : Nat :=
  sizeTs (pchTrees pch)

theorem pairsOf_trees (pch : List (Nat × List CodeBlockTree)) :
    (pairsOf pch).map (fun pc => pc.2) = pchTrees pch := by
  rw [pairsOf, pchTrees, List.map_flatMap]
  congr 1
  funext pc
  rw [List.map_map]
  simp

theorem pushIdx_length (nds : List CompNode) (p idx : Nat) :
    (pushIdx nds p idx).length = nds.length := by
  induction nds generalizing p with
  | nil => rfl
  | cons nd nds ih =>
    cases p with
    | zero => rfl
    | succ q => simp [pushIdx, ih]

theorem procPairs_next_len (uOn : Bool) (uFn : String → String → String) :
    ∀ (pairs : List (Nat × CodeBlockTree)) (curr next : List CompNode)
      (newCh : List (Nat × List CodeBlockTree)),
      (procPairs uOn uFn pairs curr next newCh).2.1.length =
        next.length + pairs.length := by
  intro pairs
  induction pairs with
  | nil => intro curr next newCh; simp [procPairs]
  | cons pc rest ih =>
    intro curr next newCh
    obtain ⟨pIdx, child⟩ := pc
    rw [procPairs, ih]
    simp
    omega

theorem procPairs_newCh_trees (uOn : Bool) (uFn : String → String → String) :
    ∀ (pairs : List (Nat × CodeBlockTree)) (curr next : List CompNode)
      (newCh : List (Nat × List CodeBlockTree)),
      pchTrees (procPairs uOn uFn pairs curr next newCh).2.2 =
        pchTrees newCh ++ pairs.flatMap (fun pc => pc.2.children) := by
  intro pairs
  induction pairs with
  | nil => intro curr next newCh; simp [procPairs]
  | cons pc rest ih =>
    intro curr next newCh
    obtain ⟨pIdx, child⟩ := pc
    rw [procPairs, ih, List.flatMap_cons]
    rw [pchTrees, List.flatMap_append]
    rw [pchTrees]
    simp [List.append_assoc]

theorem pchSize_procPairs (uOn : Bool) (uFn : String → String → String)
    (pairs : List (Nat × CodeBlockTree)) (curr next : List CompNode)
    (newCh : List (Nat × List CodeBlockTree)) :
    pchSize (procPairs uOn uFn pairs curr next newCh).2.2 + pairs.length =
      pchSize newCh + sizeTs (pairs.map (fun pc => pc.2)) := by
  rw [pchSize, procPairs_newCh_trees, sizeTs_append, ← pchSize]
  have h : sizeTs (pairs.flatMap (fun pc => pc.2.children)) + pairs.length =
      sizeTs (pairs.map (fun pc => pc.2)) := by
    have := sizeTs_flatMap_children (pairs.map (fun pc => pc.2))
    rw [List.flatMap_map] at this
    simpa using this
  omega

/-- The breadth-first flattening loop of `prepare` (`tree.rs:196-244`):
while the node frontier is non-empty, push it as a level, process all
`(parent, child)` pairs — patching the just-pushed level's
`children_idxs`, computing usages, and building the next frontier — then
continue with the next frontier and `p_children`. -/
def prepare_loop (uOn : Bool) (uFn : String → String → String)
    (nodes : List CompNode) (pch : List (Nat × List CodeBlockTree)) :
    List CompLevel :=
  if h : nodes = [] then []
  else
    CompLevel.mk (procPairs uOn uFn (pairsOf pch) nodes [] []).1 ::
      prepare_loop uOn uFn (procPairs uOn uFn (pairsOf pch) nodes [] []).2.1
        (procPairs uOn uFn (pairsOf pch) nodes [] []).2.2
termination_by pchSize pch + nodes.length
decreasing_by
  have h1 := procPairs_next_len uOn uFn (pairsOf pch) nodes [] []
  have h2 := pchSize_procPairs uOn uFn (pairsOf pch) nodes [] []
  have h3 : sizeTs ((pairsOf pch).map (fun pc => pc.2)) = pchSize pch := by
    rw [pairsOf_trees, pchSize]
  have h5 : 0 < nodes.length := List.length_pos.2 h
  have h6 : pchSize ([] : List (Nat × List CodeBlockTree)) = 0 := rfl
  simp only [List.length_nil] at h1
  omega

/-- `prepare` (`tree.rs:175-251`): build the completion level array from a
code block tree, starting from the root node (whose `usages` is empty) and
its children. The language-server handle is the `uFn` parameter; the run
models a successful preparation (a usages failure aborts `prepare` in the
source). -/
def prepare (uOn : Bool) (uFn : String → String → String)
    (tree : CodeBlockTree) : List CompLevel :=
  prepare_loop uOn uFn [⟨[], tree.name, tree.code, [], ""⟩]
    [(0, tree.children)]

theorem prepare_loop_nil (uOn : Bool) (uFn : String → String → String)
    (pch : List (Nat × List CodeBlockTree)) :
    prepare_loop uOn uFn [] pch = [] := by
  rw [prepare_loop, dif_pos rfl]

theorem prepare_loop_cons (uOn : Bool) (uFn : String → String → String)
    (nodes : List CompNode) (pch : List (Nat × List CodeBlockTree))
    (h : nodes ≠ []) :
    prepare_loop uOn uFn nodes pch =
      CompLevel.mk (procPairs uOn uFn (pairsOf pch) nodes [] []).1 ::
        prepare_loop uOn uFn (procPairs uOn uFn (pairsOf pch) nodes [] []).2.1
          (procPairs uOn uFn (pairsOf pch) nodes [] []).2.2 := by
  rw [prepare_loop, dif_neg h]

/-- The (name, code) identity of a `CompNode`. -/
def nc (nd : CompNode) : String × String := (nd.name, nd.code)

/-- The (name, code) pairs of the tree nodes at a given depth, in
left-to-right order. -/
def depthNC : Nat → CodeBlockTree → List (String × String)
  | 0, t => [(t.name, t.code)]
  | L + 1, t => t.children.flatMap (depthNC L)

/-- Reference shape of the level array: the current frontier's
(name, code) pairs, then the levels of the pending trees, stopping when
the frontier is empty. -/
def levelsSpec (ncs : List (String × String)) (ts : List CodeBlockTree) :
    List (List (String × String)) :=
  if h : ncs = [] then []
  else
    ncs :: levelsSpec (ts.map (fun t => (t.name, t.code)))
      (ts.flatMap (fun t => t.children))
termination_by sizeTs ts + ncs.length
decreasing_by
  have h1 := sizeTs_flatMap_children ts
  have h2 : (ts.map (fun t => (t.name, t.code))).length = ts.length :=
    List.length_map _ _
  have h5 : 0 < ncs.length := List.length_pos.2 h
  omega

theorem pushIdx_map_nc (nds : List CompNode) (p idx : Nat) :
    (pushIdx nds p idx).map nc = nds.map nc := by
  induction nds generalizing p with
  | nil => rfl
  | cons nd nds ih =>
    cases p with
    | zero => simp [pushIdx, nc]
    | succ q => simp [pushIdx, ih]

theorem procPairs_curr_nc (uOn : Bool) (uFn : String → String → String) :
    ∀ (pairs : List (Nat × CodeBlockTree)) (curr next : List CompNode)
      (newCh : List (Nat × List CodeBlockTree)),
      (procPairs uOn uFn pairs curr next newCh).1.map nc = curr.map nc := by
  intro pairs
  induction pairs with
  | nil => intro curr next newCh; simp [procPairs]
  | cons pc rest ih =>
    intro curr next newCh
    obtain ⟨pIdx, child⟩ := pc
    rw [procPairs, ih, pushIdx_map_nc]

theorem procPairs_curr_len (uOn : Bool) (uFn : String → String → String)
    (pairs : List (Nat × CodeBlockTree)) (curr next : List CompNode)
    (newCh : List (Nat × List CodeBlockTree)) :
    (procPairs uOn uFn pairs curr next newCh).1.length = curr.length := by
  have h := procPairs_curr_nc uOn uFn pairs curr next newCh
  have h1 : ((procPairs uOn uFn pairs curr next newCh).1.map nc).length =
      (curr.map nc).length := by rw [h]
  simpa using h1

theorem procPairs_next_nc (uOn : Bool) (uFn : String → String → String) :
    ∀ (pairs : List (Nat × CodeBlockTree)) (curr next : List CompNode)
      (newCh : List (Nat × List CodeBlockTree)),
      (procPairs uOn uFn pairs curr next newCh).2.1.map nc =
        next.map nc ++ pairs.map (fun pc => (pc.2.name, pc.2.code)) := by
  intro pairs
  induction pairs with
  | nil => intro curr next newCh; simp [procPairs]
  | cons pc rest ih =>
    intro curr next newCh
    obtain ⟨pIdx, child⟩ := pc
    rw [procPairs, ih]
    simp [nc]

theorem pushIdx_forall {P : Nat → Prop} (nds : List CompNode) (p idx : Nat)
    (hall : ∀ nd ∈ nds, ∀ i ∈ nd.children_idxs, P i) (hidx : P idx) :
    ∀ nd ∈ pushIdx nds p idx, ∀ i ∈ nd.children_idxs, P i := by
  induction nds generalizing p with
  | nil => intro nd h; simp [pushIdx] at h
  | cons nd0 nds ih =>
    cases p with
    | zero =>
      intro nd hmem i hi
      rw [pushIdx] at hmem
      rcases List.mem_cons.1 hmem with heq | htail
      · subst heq
        simp only [List.mem_append, List.mem_singleton] at hi
        rcases hi with hold | hnew
        · exact hall nd0 (List.mem_cons_self _ _) i hold
        · rw [hnew]; exact hidx
      · exact hall nd (List.mem_cons_of_mem _ htail) i hi
    | succ q =>
      intro nd hmem i hi
      rw [pushIdx] at hmem
      rcases List.mem_cons.1 hmem with heq | htail
      · subst heq
        exact hall nd (List.mem_cons_self _ _) i hi
      · exact ih q (fun x hx => hall x (List.mem_cons_of_mem _ hx)) nd htail
          i hi

theorem procPairs_idx_bound (uOn : Bool) (uFn : String → String → String) :
    ∀ (pairs : List (Nat × CodeBlockTree)) (curr next : List CompNode)
      (newCh : List (Nat × List CodeBlockTree)),
      (∀ nd ∈ curr, ∀ i ∈ nd.children_idxs,
        i < next.length + pairs.length) →
      ∀ nd ∈ (procPairs uOn uFn pairs curr next newCh).1,
        ∀ i ∈ nd.children_idxs, i < next.length + pairs.length := by
  intro pairs
  induction pairs with
  | nil =>
    intro curr next newCh hall
    simpa [procPairs] using hall
  | cons pc rest ih =>
    intro curr next newCh hall
    obtain ⟨pIdx, child⟩ := pc
    rw [procPairs]
    intro nd hmem i hi
    have hb := ih (pushIdx curr pIdx next.length) (next ++ [_]) (newCh ++ [_])
      (by
        apply pushIdx_forall
        · intro x hx j hj
          have := hall x hx j hj
          simp only [List.length_append, List.length_cons,
            List.length_singleton, List.length_nil] at this ⊢
          omega
        · simp only [List.length_append, List.length_cons,
            List.length_singleton]
          omega)
      nd hmem i hi
    simp only [List.length_append, List.length_singleton,
      List.length_cons, List.length_nil] at hb ⊢
    omega

theorem procPairs_next_empty_idxs (uOn : Bool)
    (uFn : String → String → String) :
    ∀ (pairs : List (Nat × CodeBlockTree)) (curr next : List CompNode)
      (newCh : List (Nat × List CodeBlockTree)),
      (∀ nd ∈ next, nd.children_idxs = []) →
      ∀ nd ∈ (procPairs uOn uFn pairs curr next newCh).2.1,
        nd.children_idxs = [] := by
  intro pairs
  induction pairs with
  | nil =>
    intro curr next newCh hall
    simpa [procPairs] using hall
  | cons pc rest ih =>
    intro curr next newCh hall
    obtain ⟨pIdx, child⟩ := pc
    rw [procPairs]
    apply ih
    intro nd hmem
    rcases List.mem_append.1 hmem with hold | hnew
    · exact hall nd hold
    · rw [List.mem_singleton] at hnew
      rw [hnew]

theorem levelsSpec_nil (ts : List CodeBlockTree) : levelsSpec [] ts = [] := by
  rw [levelsSpec, dif_pos rfl]

theorem levelsSpec_cons (ncs : List (String × String))
    (ts : List CodeBlockTree) (h : ncs ≠ []) :
    levelsSpec ncs ts =
      ncs :: levelsSpec (ts.map (fun t => (t.name, t.code)))
        (ts.flatMap (fun t => t.children)) := by
  rw [levelsSpec, dif_neg h]

theorem pairsOf_map_nc (pch : List (Nat × List CodeBlockTree)) :
    (pairsOf pch).map (fun pc => (pc.2.name, pc.2.code)) =
      (pchTrees pch).map (fun t => (t.name, t.code)) := by
  rw [pairsOf, pchTrees, List.map_flatMap, List.map_flatMap]
  congr 1
  funext pc
  rw [List.map_map]
  simp

theorem pairsOf_flatMap_children (pch : List (Nat × List CodeBlockTree)) :
    (pairsOf pch).flatMap (fun pc => pc.2.children) =
      (pchTrees pch).flatMap (fun t => t.children) := by
  calc (pairsOf pch).flatMap (fun pc => pc.2.children)
      = ((pairsOf pch).map (fun pc => pc.2)).flatMap
          (fun t => t.children) := by rw [List.flatMap_map]
    _ = (pchTrees pch).flatMap (fun t => t.children) := by
        rw [pairsOf_trees]

theorem procPairs_measure (uOn : Bool) (uFn : String → String → String)
    (nodes : List CompNode) (pch : List (Nat × List CodeBlockTree)) :
    pchSize (procPairs uOn uFn (pairsOf pch) nodes [] []).2.2 +
      (procPairs uOn uFn (pairsOf pch) nodes [] []).2.1.length =
      pchSize pch := by
  have h1 := procPairs_next_len uOn uFn (pairsOf pch) nodes [] []
  have h2 := pchSize_procPairs uOn uFn (pairsOf pch) nodes [] []
  have h3 : sizeTs ((pairsOf pch).map (fun pc => pc.2)) = pchSize pch := by
    rw [pairsOf_trees, pchSize]
  have h6 : pchSize ([] : List (Nat × List CodeBlockTree)) = 0 := rfl
  simp only [List.length_nil] at h1
  omega

theorem prepare_loop_levels (uOn : Bool) (uFn : String → String → String) :
    ∀ (m : Nat) (nodes : List CompNode)
      (pch : List (Nat × List CodeBlockTree)),
      pchSize pch + nodes.length ≤ m →
      (prepare_loop uOn uFn nodes pch).map (fun lv => lv.nodes.map nc) =
        levelsSpec (nodes.map nc) (pchTrees pch) := by
  intro m
  induction m using Nat.strong_induction_on with
  | _ m ih =>
    intro nodes pch hm
    by_cases hn : nodes = []
    · subst hn
      rw [prepare_loop_nil]
      simp [levelsSpec_nil]
    · rw [prepare_loop_cons uOn uFn nodes pch hn, List.map_cons,
        levelsSpec_cons _ _ (by simpa using hn)]
      have hlen : 0 < nodes.length := List.length_pos.2 hn
      have hmeas := procPairs_measure uOn uFn nodes pch
      have hm1 : 1 ≤ m := by omega
      have htail := ih (m - 1) (by omega)
        (procPairs uOn uFn (pairsOf pch) nodes [] []).2.1
        (procPairs uOn uFn (pairsOf pch) nodes [] []).2.2 (by omega)
      rw [htail]
      congr 1
      · exact procPairs_curr_nc uOn uFn (pairsOf pch) nodes [] []
      · rw [procPairs_next_nc, List.map_nil, List.nil_append, pairsOf_map_nc,
          procPairs_newCh_trees]
        have hpt : pchTrees ([] : List (Nat × List CodeBlockTree)) = [] := rfl
        rw [hpt, List.nil_append, pairsOf_flatMap_children]

theorem map_getD_levels (ls : List CompLevel) :
    ∀ (k : Nat),
      (ls.map (fun lv => lv.nodes.map nc)).getD k [] =
        ((ls.getD k ⟨[]⟩).nodes.map nc) := by
  induction ls with
  | nil => intro k; simp [List.getD]
  | cons lv ls ih =>
    intro k
    cases k with
    | zero => simp
    | succ k => simpa using ih k

theorem flatMap_depthNC_zero (ts : List CodeBlockTree) :
    ts.flatMap (depthNC 0) = ts.map (fun t => (t.name, t.code)) := by
  induction ts with
  | nil => rfl
  | cons t ts ih => rw [List.flatMap_cons, ih, List.map_cons, depthNC]; rfl

theorem levelsSpec_getD_succ :
    ∀ (k : Nat) (ncs : List (String × String)) (ts : List CodeBlockTree),
      (ncs = [] → ts = []) →
      (levelsSpec ncs ts).getD (k + 1) [] = ts.flatMap (depthNC k) := by
  intro k
  induction k with
  | zero =>
    intro ncs ts hpre
    by_cases h : ncs = []
    · rw [hpre h, h, levelsSpec_nil]
      rfl
    · rw [levelsSpec_cons _ _ h]
      simp only [List.getD_cons_succ]
      by_cases hts : ts = []
      · subst hts
        rw [List.map_nil, levelsSpec_nil]
        rfl
      · rw [levelsSpec_cons _ _ (by simpa using hts)]
        simp only [List.getD_cons_zero]
        rw [flatMap_depthNC_zero]
  | succ k ihk =>
    intro ncs ts hpre
    by_cases h : ncs = []
    · rw [hpre h, h, levelsSpec_nil]
      rfl
    · rw [levelsSpec_cons _ _ h]
      simp only [List.getD_cons_succ]
      rw [ihk _ _ (fun hm => by rw [List.map_eq_nil_iff.mp hm]; rfl)]
      rw [List.flatMap_assoc]
      rfl

theorem levelsSpec_getD_zero (ncs : List (String × String))
    (ts : List CodeBlockTree) (h : ncs ≠ []) :
    (levelsSpec ncs ts).getD 0 [] = ncs := by
  rw [levelsSpec_cons _ _ h]
  rfl

theorem prepare_loop_idx_valid (uOn : Bool) (uFn : String → String → String) :
    ∀ (m : Nat) (nodes : List CompNode)
      (pch : List (Nat × List CodeBlockTree)),
      pchSize pch + nodes.length ≤ m →
      (∀ nd ∈ nodes, nd.children_idxs = []) →
      ∀ (k : Nat),
        ∀ nd ∈ ((prepare_loop uOn uFn nodes pch).getD k ⟨[]⟩).nodes,
          ∀ i ∈ nd.children_idxs,
            k + 1 < (prepare_loop uOn uFn nodes pch).length ∧
            i < ((prepare_loop uOn uFn nodes pch).getD (k + 1)
              ⟨[]⟩).nodes.length := by
  intro m
  induction m using Nat.strong_induction_on with
  | _ m ih =>
    intro nodes pch hm hemp k nd hmem i hi
    by_cases hn : nodes = []
    · subst hn
      rw [prepare_loop_nil] at hmem
      simp [List.getD] at hmem
    · have hlen : 0 < nodes.length := List.length_pos.2 hn
      have hmeas := procPairs_measure uOn uFn nodes pch
      rw [prepare_loop_cons uOn uFn nodes pch hn] at hmem ⊢
      cases k with
      | zero =>
        simp only [List.getD_cons_zero] at hmem
        have hbound := procPairs_idx_bound uOn uFn (pairsOf pch) nodes [] []
          (by
            intro x hx j hj
            rw [hemp x hx] at hj
            simp at hj)
          nd hmem i hi
        simp only [List.length_nil, Nat.zero_add] at hbound
        have hpairs_pos : 0 < (pairsOf pch).length := by omega
        have hnext_len :=
          procPairs_next_len uOn uFn (pairsOf pch) nodes [] []
        simp only [List.length_nil, Nat.zero_add] at hnext_len
        have hnext_ne :
            (procPairs uOn uFn (pairsOf pch) nodes [] []).2.1 ≠ [] := by
          intro hnil
          rw [hnil] at hnext_len
          simp at hnext_len
          omega
        rw [prepare_loop_cons uOn uFn _ _ hnext_ne]
        constructor
        · simp
        · simp only [List.getD_cons_succ, List.getD_cons_zero]
          rw [procPairs_curr_len]
          omega
      | succ k =>
        simp only [List.getD_cons_succ] at hmem ⊢
        have hemp2 := procPairs_next_empty_idxs uOn uFn (pairsOf pch) nodes
          [] [] (by intro x hx; simp at hx)
        have hrec := ih (m - 1) (by omega)
          (procPairs uOn uFn (pairsOf pch) nodes [] []).2.1
          (procPairs uOn uFn (pairsOf pch) nodes [] []).2.2 (by omega)
          hemp2 k nd hmem i hi
        constructor
        · simp only [List.length_cons]
          omega
        · exact hrec.2

/-- Claim C4: after a (successful) `prepare`, the level array satisfies:
level 0 holds exactly one node, the root; for every depth `L`, the
(name, code) pairs of `levels[L]` are exactly those of the tree nodes at
depth `L` (both sides are empty beyond the deepest level, so the levels are
exhaustive); and every index in any node's `children_idxs` at level `k` is
a valid position in the level-`(k+1)` node array. -/
theorem prepare_levels_spec (uOn : Bool) (uFn : String → String → String)
    (t : CodeBlockTree) :
    ((prepare uOn uFn t).getD 0 ⟨[]⟩).nodes.map nc = [(t.name, t.code)] ∧
    (∀ L, ((prepare uOn uFn t).getD L ⟨[]⟩).nodes.map nc = depthNC L t) ∧
    (∀ k, ∀ nd ∈ ((prepare uOn uFn t).getD k ⟨[]⟩).nodes,
      ∀ i ∈ nd.children_idxs,
        k + 1 < (prepare uOn uFn t).length ∧
        i < ((prepare uOn uFn t).getD (k + 1) ⟨[]⟩).nodes.length) := by
  have hroot_ne : ([⟨[], t.name, t.code, [], ""⟩] : List CompNode) ≠ [] := by
    simp
  have hlev := prepare_loop_levels uOn uFn
    (pchSize [(0, t.children)] + 1) [⟨[], t.name, t.code, [], ""⟩]
    [(0, t.children)] (by simp)
  have hTrees : pchTrees [(0, t.children)] = t.children := by
    rw [pchTrees, List.flatMap_cons]
    simp
  have hgetD : ∀ L, ((prepare uOn uFn t).getD L ⟨[]⟩).nodes.map nc =
      (levelsSpec [(t.name, t.code)] t.children).getD L [] := by
    intro L
    rw [← map_getD_levels]
    rw [prepare, hlev, hTrees]
    rfl
  have hdepth : ∀ L, ((prepare uOn uFn t).getD L ⟨[]⟩).nodes.map nc =
      depthNC L t := by
    intro L
    rw [hgetD]
    cases L with
    | zero =>
      rw [levelsSpec_getD_zero _ _ (by simp)]
      rfl
    | succ L =>
      rw [levelsSpec_getD_succ L _ _ (by intro h; simp at h)]
      rfl
  refine ⟨hdepth 0, hdepth, ?_⟩
  intro k nd hmem i hi
  exact prepare_loop_idx_valid uOn uFn
    (pchSize [(0, t.children)] + 1) [⟨[], t.name, t.code, [], ""⟩]
    [(0, t.children)] (by simp)
    (by intro x hx; rw [List.mem_singleton] at hx; rw [hx]) k nd hmem i hi

/-- Witness for C4 on a tree with one root and one child: the root at level
0 records child index 0, which is a valid position in level 1. -/
theorem prepare_levels_spec_witness :
    0 + 1 < (prepare false (fun _ _ => "")
      ⟨"topnode_0", "p", [⟨"c", "q", []⟩]⟩).length ∧
    0 < ((prepare false (fun _ _ => "")
      ⟨"topnode_0", "p", [⟨"c", "q", []⟩]⟩).getD (0 + 1) ⟨[]⟩).nodes.length := by
  have hprep : prepare false (fun _ _ => "")
      ⟨"topnode_0", "p", [⟨"c", "q", []⟩]⟩ =
      [⟨[⟨[0], "topnode_0", "p", [], ""⟩]⟩, ⟨[⟨[], "c", "q", [], ""⟩]⟩] := by
    rw [prepare, prepare_loop_cons _ _ _ _ (by simp)]
    have hX : procPairs false (fun _ _ => "")
        (pairsOf [(0, [⟨"c", "q", []⟩])])
        [⟨[], "topnode_0", "p", [], ""⟩] [] [] =
        ([⟨[0], "topnode_0", "p", [], ""⟩], [⟨[], "c", "q", [], ""⟩],
          [(0, [])]) := rfl
    rw [hX, prepare_loop_cons _ _ _ _ (by simp)]
    have hX2 : procPairs false (fun _ _ => "")
        (pairsOf [(0, ([] : List CodeBlockTree))])
        [⟨[], "c", "q", [], ""⟩] [] [] =
        ([⟨[], "c", "q", [], ""⟩], [], []) := rfl
    rw [hX2, prepare_loop_nil]
  exact (prepare_levels_spec false (fun _ _ => "")
    ⟨"topnode_0", "p", [⟨"c", "q", []⟩]⟩).2.2 0
    ⟨[0], "topnode_0", "p", [], ""⟩ (by rw [hprep]; simp) 0 (by simp)

/-- Lowercase hexadecimal digit character (as emitted by `serde_json`'s
`\u00XX` escapes). -/
def toHex (d : Nat) : Char :=
  if d < 10 then Char.ofNat (48 + d) else Char.ofNat (87 + d)

/-- Parse one hexadecimal digit character. -/
def fromHex (c : Char) : Option Nat :=
  if 48 ≤ c.toNat ∧ c.toNat ≤ 57 then some (c.toNat - 48)
  else if 97 ≤ c.toNat ∧ c.toNat ≤ 102 then some (c.toNat - 87)
  else none

theorem fromHex_toHex : ∀ d, d < 16 → fromHex (toHex d) = some d := by
  decide

/-- `serde_json`'s escape of one character inside a JSON string: `"` and
`\` are backslash-escaped, the control characters `\x08 \x0C \n \r \t` use
their shorthands, any other control character becomes `\u00XX`, and every
remaining character is emitted as is. -/
def escChar (c : Char) : List Char :=
  if c = '"' then ['\\', '"']
  else if c = '\\' then ['\\', '\\']
  else if c = '\x08' then ['\\', 'b']
  else if c = '\x0C' then ['\\', 'f']
  else if c = '\n' then ['\\', 'n']
  else if c = '\r' then ['\\', 'r']
  else if c = '\t' then ['\\', 't']
  else if c.toNat < 32 then
    ['\\', 'u', '0', '0', toHex (c.toNat / 16), toHex (c.toNat % 16)]
  else [c]

/-- `serde_json`'s escape of a JSON string body. -/
def jsonEscape (s : List Char) : List Char := s.flatMap escChar

/-- Decode the body of a JSON string up to (and consuming) the closing
unescaped quote, returning the decoded characters and the remainder. -/
def scanJStr : List Char → Option (List Char × List Char)
  | [] => none
  | c :: rest =>
    if c = '"' then some ([], rest)
    else if c = '\\' then
      match rest with
      | [] => none
      | e :: rest2 =>
        if e = '"' then
          (scanJStr rest2).map (fun pr => ('"' :: pr.1, pr.2))
        else if e = '\\' then
          (scanJStr rest2).map (fun pr => ('\\' :: pr.1, pr.2))
        else if e = 'b' then
          (scanJStr rest2).map (fun pr => ('\x08' :: pr.1, pr.2))
        else if e = 'f' then
          (scanJStr rest2).map (fun pr => ('\x0C' :: pr.1, pr.2))
        else if e = 'n' then
          (scanJStr rest2).map (fun pr => ('\n' :: pr.1, pr.2))
        else if e = 'r' then
          (scanJStr rest2).map (fun pr => ('\r' :: pr.1, pr.2))
        else if e = 't' then
          (scanJStr rest2).map (fun pr => ('\t' :: pr.1, pr.2))
        else if e = 'u' then
          match rest2 with
          | h1 :: h2 :: h3 :: h4 :: rest3 =>
            match fromHex h1, fromHex h2, fromHex h3, fromHex h4 with
            | some a, some b, some c2, some d =>
              (scanJStr rest3).map (fun pr =>
                (Char.ofNat (((a * 16 + b) * 16 + c2) * 16 + d) :: pr.1,
                  pr.2))
            | _, _, _, _ => none
          | _ => none
        else none
    else (scanJStr rest).map (fun pr => (c :: pr.1, pr.2))

theorem scanJStr_quote (rest : List Char) :
    scanJStr ('"' :: rest) = some ([], rest) := by
  rw [scanJStr.eq_def]
  simp

theorem scanJStr_plain (c : Char) (rest : List Char) (hq : c ≠ '"')
    (hb : c ≠ '\\') :
    scanJStr (c :: rest) = (scanJStr rest).map
      (fun pr => (c :: pr.1, pr.2)) := by
  rw [scanJStr.eq_def]
  simp [hq, hb]

theorem scanJStr_esc_quote (rest : List Char) :
    scanJStr ('\\' :: '"' :: rest) = (scanJStr rest).map
      (fun pr => ('"' :: pr.1, pr.2)) := by
  rw [scanJStr.eq_def]
  simp

theorem scanJStr_esc_back (rest : List Char) :
    scanJStr ('\\' :: '\\' :: rest) = (scanJStr rest).map
      (fun pr => ('\\' :: pr.1, pr.2)) := by
  rw [scanJStr.eq_def]
  simp

theorem scanJStr_esc_b (rest : List Char) :
    scanJStr ('\\' :: 'b' :: rest) = (scanJStr rest).map
      (fun pr => ('\x08' :: pr.1, pr.2)) := by
  rw [scanJStr.eq_def]
  simp

theorem scanJStr_esc_f (rest : List Char) :
    scanJStr ('\\' :: 'f' :: rest) = (scanJStr rest).map
      (fun pr => ('\x0C' :: pr.1, pr.2)) := by
  rw [scanJStr.eq_def]
  simp

theorem scanJStr_esc_nl (rest : List Char) :
    scanJStr ('\\' :: 'n' :: rest) = (scanJStr rest).map
      (fun pr => ('\n' :: pr.1, pr.2)) := by
  rw [scanJStr.eq_def]
  simp

theorem scanJStr_esc_cr (rest : List Char) :
    scanJStr ('\\' :: 'r' :: rest) = (scanJStr rest).map
      (fun pr => ('\r' :: pr.1, pr.2)) := by
  rw [scanJStr.eq_def]
  simp

theorem scanJStr_esc_tab (rest : List Char) :
    scanJStr ('\\' :: 't' :: rest) = (scanJStr rest).map
      (fun pr => ('\t' :: pr.1, pr.2)) := by
  rw [scanJStr.eq_def]
  simp

theorem scanJStr_esc_u (h1 h2 h3 h4 : Char) (a b c2 d : Nat)
    (rest : List Char) (ha : fromHex h1 = some a) (hb : fromHex h2 = some b)
    (hc : fromHex h3 = some c2) (hd : fromHex h4 = some d) :
    scanJStr ('\\' :: 'u' :: h1 :: h2 :: h3 :: h4 :: rest) =
      (scanJStr rest).map (fun pr =>
        (Char.ofNat (((a * 16 + b) * 16 + c2) * 16 + d) :: pr.1, pr.2)) := by
  rw [scanJStr.eq_def]
  simp [ha, hb, hc, hd]

theorem scanJStr_escape : ∀ (q rest : List Char),
    scanJStr (jsonEscape q ++ '"' :: rest) = some (q, rest) := by
  intro q
  induction q with
  | nil =>
    intro rest
    rw [show jsonEscape [] = [] from rfl, List.nil_append, scanJStr_quote]
  | cons c q ih =>
    intro rest
    have hesc : jsonEscape (c :: q) = escChar c ++ jsonEscape q := by
      rw [jsonEscape, List.flatMap_cons]
      rfl
    rw [hesc, List.append_assoc, escChar]
    by_cases h1 : c = '"'
    · rw [if_pos h1,
        show (['\\', '"'] : List Char) ++ (jsonEscape q ++ '"' :: rest) =
          '\\' :: '"' :: (jsonEscape q ++ '"' :: rest) from rfl,
        scanJStr_esc_quote, ih rest, h1]
      rfl
    · rw [if_neg h1]
      by_cases h2 : c = '\\'
      · rw [if_pos h2,
          show (['\\', '\\'] : List Char) ++ (jsonEscape q ++ '"' :: rest) =
            '\\' :: '\\' :: (jsonEscape q ++ '"' :: rest) from rfl,
          scanJStr_esc_back, ih rest, h2]
        rfl
      · rw [if_neg h2]
        by_cases h3 : c = '\x08'
        · rw [if_pos h3,
            show (['\\', 'b'] : List Char) ++ (jsonEscape q ++ '"' :: rest) =
              '\\' :: 'b' :: (jsonEscape q ++ '"' :: rest) from rfl,
            scanJStr_esc_b, ih rest, h3]
          rfl
        · rw [if_neg h3]
          by_cases h4 : c = '\x0C'
          · rw [if_pos h4,
              show (['\\', 'f'] : List Char) ++
                  (jsonEscape q ++ '"' :: rest) =
                '\\' :: 'f' :: (jsonEscape q ++ '"' :: rest) from rfl,
              scanJStr_esc_f, ih rest, h4]
            rfl
          · rw [if_neg h4]
            by_cases h5 : c = '\n'
            · rw [if_pos h5,
                show (['\\', 'n'] : List Char) ++
                    (jsonEscape q ++ '"' :: rest) =
                  '\\' :: 'n' :: (jsonEscape q ++ '"' :: rest) from rfl,
                scanJStr_esc_nl, ih rest, h5]
              rfl
            · rw [if_neg h5]
              by_cases h6 : c = '\r'
              · rw [if_pos h6,
                  show (['\\', 'r'] : List Char) ++
                      (jsonEscape q ++ '"' :: rest) =
                    '\\' :: 'r' :: (jsonEscape q ++ '"' :: rest) from rfl,
                  scanJStr_esc_cr, ih rest, h6]
                rfl
              · rw [if_neg h6]
                by_cases h7 : c = '\t'
                · rw [if_pos h7,
                    show (['\\', 't'] : List Char) ++
                        (jsonEscape q ++ '"' :: rest) =
                      '\\' :: 't' :: (jsonEscape q ++ '"' :: rest) from rfl,
                    scanJStr_esc_tab, ih rest, h7]
                  rfl
                · rw [if_neg h7]
                  by_cases h8 : c.toNat < 32
                  · rw [if_pos h8,
                      show (['\\', 'u', '0', '0', toHex (c.toNat / 16),
                          toHex (c.toNat % 16)] : List Char) ++
                          (jsonEscape q ++ '"' :: rest) =
                        '\\' :: 'u' :: '0' :: '0' :: toHex (c.toNat / 16) ::
                          toHex (c.toNat % 16) ::
                          (jsonEscape q ++ '"' :: rest) from rfl,
                      scanJStr_esc_u '0' '0' _ _ 0 0 (c.toNat / 16)
                        (c.toNat % 16) _ (by decide) (by decide)
                        (fromHex_toHex _ (by omega))
                        (fromHex_toHex _ (by omega)),
                      ih rest]
                    have hval : ((0 * 16 + 0) * 16 + c.toNat / 16) * 16 +
                        c.toNat % 16 = c.toNat := by omega
                    rw [hval, Char.ofNat_toNat]
                    rfl
                  · rw [if_neg h8,
                      show ([c] : List Char) ++ (jsonEscape q ++ '"' :: rest)
                        = c :: (jsonEscape q ++ '"' :: rest) from rfl,
                      scanJStr_plain c _ h1 h2, ih rest]
                    rfl

/-- Decimal digit test. -/
def isDig (c : Char) : Bool := decide (48 ≤ c.toNat ∧ c.toNat ≤ 57)

/-- The character of a decimal digit. -/
def digitChar (d : Nat) : Char := Char.ofNat (48 + d)

/-- Decimal representation of a `Nat` (Rust's `usize` `Display`). -/
def natToDec (n : Nat) : List Char :=
  if n < 10 then [digitChar n]
  else natToDec (n / 10) ++ [digitChar (n % 10)]
termination_by n
decreasing_by exact Nat.div_lt_self (by omega) (by omega)

/-- Numeric value of a decimal digit string. -/
def decValue (ds : List Char) : Nat :=
  ds.foldl (fun a c => a * 10 + (c.toNat - 48)) 0

theorem digitChar_toNat (d : Nat) (hd : d < 10) :
    (digitChar d).toNat = 48 + d := by
  have hv : (48 + d).isValidChar := by
    left
    omega
  rw [digitChar, Char.ofNat, dif_pos hv]
  rfl

theorem isDig_digitChar (d : Nat) (hd : d < 10) :
    isDig (digitChar d) = true := by
  rw [isDig, digitChar_toNat d hd]
  simp
  omega

theorem natToDec_digits : ∀ (n : Nat), ∀ c ∈ natToDec n, isDig c = true := by
  intro n
  induction n using Nat.strong_induction_on with
  | _ n ih =>
    intro c hc
    rw [natToDec] at hc
    split_ifs at hc with h
    · rw [List.mem_singleton] at hc
      rw [hc]
      exact isDig_digitChar n h
    · rcases List.mem_append.1 hc with h1 | h2
      · exact ih (n / 10) (Nat.div_lt_self (by omega) (by omega)) c h1
      · rw [List.mem_singleton] at h2
        rw [h2]
        exact isDig_digitChar _ (Nat.mod_lt _ (by omega))

theorem foldl_natToDec : ∀ (n a : Nat),
    (natToDec n).foldl (fun a c => a * 10 + (c.toNat - 48)) a =
      a * 10 ^ (natToDec n).length + n := by
  intro n
  induction n using Nat.strong_induction_on with
  | _ n ih =>
    intro a
    rw [natToDec]
    split_ifs with h
    · simp only [List.foldl_cons, List.foldl_nil, List.length_cons,
        List.length_nil, digitChar_toNat n h, pow_one, Nat.zero_add]
      omega
    · have hdiv : n / 10 < n := Nat.div_lt_self (by omega) (by omega)
      rw [List.foldl_append, ih (n / 10) hdiv a]
      have hmod : (digitChar (n % 10)).toNat = 48 + n % 10 :=
        digitChar_toNat _ (Nat.mod_lt _ (by omega))
      simp only [List.foldl_cons, List.foldl_nil, List.length_append,
        List.length_cons, List.length_nil, hmod, Nat.zero_add]
      rw [pow_succ, ← Nat.mul_assoc]
      generalize a * 10 ^ (natToDec (n / 10)).length = X
      have hnm := Nat.div_add_mod n 10
      omega

theorem decValue_natToDec (n : Nat) : decValue (natToDec n) = n := by
  rw [decValue, foldl_natToDec]
  simp

theorem takeWhile_digits_append (ds : List Char)
    (hds : ∀ c ∈ ds, isDig c = true) (e : Char) (he : isDig e = false)
    (rest : List Char) :
    (ds ++ e :: rest).takeWhile isDig = ds ∧
    (ds ++ e :: rest).dropWhile isDig = e :: rest := by
  induction ds with
  | nil =>
    simp [List.takeWhile_cons, List.dropWhile_cons, he]
  | cons c ds ih =>
    have hc := hds c (List.mem_cons_self _ _)
    have ihh := ih (fun x hx => hds x (List.mem_cons_of_mem _ hx))
    simp [List.takeWhile_cons, List.dropWhile_cons, hc, ihh.1, ihh.2]

/-- Strip an exact expected prefix, returning the remainder. -/
def stripExact : List Char → List Char → Option (List Char)
  | [], rest => some rest
  | _ :: _, [] => none
  | p :: ps, c :: cs => if c = p then stripExact ps cs else none

theorem stripExact_append : ∀ (pre rest : List Char),
    stripExact pre (pre ++ rest) = some rest := by
  intro pre
  induction pre with
  | nil => intro rest; rfl
  | cons p ps ih =>
    intro rest
    simp [stripExact, ih]

/-- `to_key` (`cache.rs:44-52`): the canonical serde_json serialization of
the object with keys `num_comps`, `query`, `retries`, `stop_at` (sorted
BTreeMap order): an opening brace, then `"num_comps":N`, `"query":"Q"`,
`"retries":R`, `"stop_at":S` separated by commas, then a closing brace;
`Q` is the JSON-escaped query text, the numbers are decimal. The query is
the `(input, num_comps, retries)` triple of the source; `stop_at` comes
from the `Cache` value. -/
def to_key (stop_at : Nat) (query : List Char × Nat × Nat) : List Char :=
  ('\x7b' :: "\"num_comps\":".data) ++
    (natToDec query.2.1 ++
      (",\"query\":\"".data ++
        (jsonEscape query.1 ++ ('"' ::
          (",\"retries\":".data ++
            (natToDec query.2.2 ++
              (",\"stop_at\":".data ++
                (natToDec stop_at ++ ['\x7d']))))))))

/-- Left inverse of `to_key`: parse the components back out of a key. -/
def decodeKey (k : List Char) : Option (List Char × Nat × Nat × Nat) :=
  (stripExact ('\x7b' :: "\"num_comps\":".data) k).bind (fun r1 =>
    (stripExact (",\"query\":\"".data) (r1.dropWhile isDig)).bind (fun r3 =>
      (scanJStr r3).bind (fun qr =>
        (stripExact (",\"retries\":".data) qr.2).bind (fun r5 =>
          (stripExact (",\"stop_at\":".data) (r5.dropWhile isDig)).bind
            (fun r7 =>
              if r7.dropWhile isDig = ['\x7d'] then
                some (qr.1, decValue (r1.takeWhile isDig),
                  decValue (r5.takeWhile isDig),
                  decValue (r7.takeWhile isDig))
              else none)))))

theorem decodeKey_to_key (qt : List Char) (n r st : Nat) :
    decodeKey (to_key st (qt, n, r)) = some (qt, n, r, st) := by
  have hcomma : isDig ',' = false := by decide
  have hbrace : isDig '\x7d' = false := by decide
  have hsplitq : ∀ X : List Char,
      (",\"query\":\"".data : List Char) ++ X =
        ',' :: ("\"query\":\"".data ++ X) := fun _ => rfl
  have hsplits : ∀ X : List Char,
      (",\"stop_at\":".data : List Char) ++ X =
        ',' :: ("\"stop_at\":".data ++ X) := fun _ => rfl
  rw [to_key, decodeKey, stripExact_append]
  simp only [Option.some_bind]
  rw [hsplitq]
  rw [(takeWhile_digits_append (natToDec n) (natToDec_digits n) ','
    hcomma _).2]
  rw [show ∀ X : List Char, (',' :: ("\"query\":\"".data ++ X)) =
    (",\"query\":\"".data : List Char) ++ X from fun _ => rfl]
  rw [stripExact_append]
  simp only [Option.some_bind]
  rw [scanJStr_escape]
  simp only [Option.some_bind]
  rw [stripExact_append]
  simp only [Option.some_bind]
  rw [hsplits]
  rw [(takeWhile_digits_append (natToDec r) (natToDec_digits r) ','
    hcomma _).2]
  rw [show ∀ X : List Char, (',' :: ("\"stop_at\":".data ++ X)) =
    (",\"stop_at\":".data : List Char) ++ X from fun _ => rfl]
  rw [stripExact_append]
  simp only [Option.some_bind]
  rw [(takeWhile_digits_append (natToDec st) (natToDec_digits st) '\x7d'
    hbrace []).2]
  rw [if_pos rfl]
  rw [show ∀ X : List Char,
    ([',', '"', 'q', 'u', 'e', 'r', 'y', '"', ':', '"'] : List Char) ++ X =
      ',' :: (['"', 'q', 'u', 'e', 'r', 'y', '"', ':', '"'] ++ X)
    from fun _ => rfl]
  rw [show ∀ X : List Char,
    ([',', '"', 's', 't', 'o', 'p', '_', 'a', 't', '"', ':'] : List Char)
        ++ X =
      ',' :: (['"', 's', 't', 'o', 'p', '_', 'a', 't', '"', ':'] ++ X)
    from fun _ => rfl]
  rw [(takeWhile_digits_append (natToDec n) (natToDec_digits n) ','
    hcomma _).1]
  rw [(takeWhile_digits_append (natToDec r) (natToDec_digits r) ','
    hcomma _).1]
  rw [(takeWhile_digits_append (natToDec st) (natToDec_digits st) '\x7d'
    hbrace []).1]
  rw [decValue_natToDec, decValue_natToDec, decValue_natToDec]

theorem to_key_injective (st st2 : Nat) (q q2 : List Char × Nat × Nat)
    (h : to_key st q = to_key st2 q2) : q = q2 ∧ st = st2 := by
  obtain ⟨qt, n, r⟩ := q
  obtain ⟨qt2, n2, r2⟩ := q2
  have h1 := decodeKey_to_key qt n r st
  have h2 := decodeKey_to_key qt2 n2 r2 st2
  rw [h, h2] at h1
  simp only [Option.some.injEq, Prod.mk.injEq] at h1
  obtain ⟨e1, e2, e3, e4⟩ := h1
  subst e1
  subst e2
  subst e3
  subst e4
  exact ⟨rfl, rfl⟩

/-- The query cache (`Cache` in `cache.rs`): the external redis store is
modelled as a function from keys to optionally present stored strings;
`stop_at` is the configuration captured at construction. -/
structure Cache where
  stop_at : Nat
  redis : List Char → Option String

/-- A cache over an empty store (`Cache::new`, `cache.rs:9-16`: a fresh
connection with no entries). -/
def Cache.new (stop_at : Nat) : Cache := ⟨stop_at, fun _ => none⟩

/-- `Cache::store` (`cache.rs:21-31`): serialize the result with the
external serde_json value encoding (the `encodeVal` parameter) and
unconditionally set it under `to_key` of the query. -/
def Cache.store (encodeVal : List String → String) (c : Cache)
    (query : List Char × Nat × Nat) (result : List String) : Cache :=
  ⟨c.stop_at, fun k =>
    if k = to_key c.stop_at query then some (encodeVal result)
    else c.redis k⟩

/-- `Cache::retrieve` (`cache.rs:34-42`): get the value stored under the
query's key, if any, decoding it with the external serde_json parser (the
`decodeVal` parameter, modelling `serde_json::from_str(..).unwrap()`). -/
def Cache.retrieve (decodeVal : String → List String) (c : Cache)
    (query : List Char × Nat × Nat) : Option (List String) :=
  (c.redis (to_key c.stop_at query)).map decodeVal

/-- Claim C5: the cache key is a pure function of exactly
`(query_text, num_comps, retries, stop_at)`: storing a result and
retrieving the same query on the same cache returns `some result`
(given that the external value serialization round-trips on that result),
while retrieving a query differing in the query text, `num_comps` or
`retries` — or through a cache constructed with a different `stop_at`
over the same store — returns `none` on an otherwise empty store. -/
theorem cache_key_spec (encodeVal : List String → String)
    (decodeVal : String → List String) (qt : List Char) (n r st : Nat)
    (result : List String) (hrt : decodeVal (encodeVal result) = result) :
    Cache.retrieve decodeVal
      (Cache.store encodeVal (Cache.new st) (qt, n, r) result) (qt, n, r) =
      some result ∧
    (∀ (qt2 : List Char) (n2 r2 st2 : Nat),
      ¬(qt2 = qt ∧ n2 = n ∧ r2 = r ∧ st2 = st) →
      Cache.retrieve decodeVal
        ⟨st2, (Cache.store encodeVal (Cache.new st) (qt, n, r)
          result).redis⟩ (qt2, n2, r2) = none) := by
  constructor
  · simp [Cache.retrieve, Cache.store, Cache.new, hrt]
  · intro qt2 n2 r2 st2 hne
    have hkey : to_key st2 (qt2, n2, r2) ≠ to_key st (qt, n, r) := by
      intro he
      have hinj := to_key_injective st2 st (qt2, n2, r2) (qt, n, r) he
      simp only [Prod.mk.injEq] at hinj
      exact hne ⟨hinj.1.1, hinj.1.2.1, hinj.1.2.2, hinj.2⟩
    simp [Cache.retrieve, Cache.store, Cache.new, hkey]

/-- Witness for C5 at the spec's concrete scenario: on a `stop_at = 7`
cache, store ("abc", 5, 2) with result ["x", "y"]; retrieving ("abc", 5, 2)
returns the list, and retrieving ("abc", 5, 3) — different retries — over
the same store returns none. -/
theorem cache_key_spec_witness :
    Cache.retrieve (fun _ => ["x", "y"])
      (Cache.store (fun _ => "E") (Cache.new 7) ("abc".data, 5, 2)
        ["x", "y"]) ("abc".data, 5, 2) = some ["x", "y"] ∧
    Cache.retrieve (fun _ => ["x", "y"])
      ⟨7, (Cache.store (fun _ => "E") (Cache.new 7) ("abc".data, 5, 2)
        ["x", "y"]).redis⟩ ("abc".data, 5, 3) = none := by
  have h := cache_key_spec (fun _ => "E") (fun _ => ["x", "y"]) "abc".data
    5 2 7 ["x", "y"] rfl
  exact ⟨h.1, h.2 "abc".data 5 3 7 (by simp)⟩
